import Mathlib

/-!
Verification of `edc_utils/review_derived_variables.py`.

The module defines one class, `ReviewDerivedVariables`: a harness that
enumerates value combinations for a fixed ordered tuple of record fields
(either synthetically, as the cartesian product of per-field option lists,
or looked up from subject-visit data), applies named classifier functions
to every combination, tallies how often each output value occurs, and logs
the combinations a classifier reports as unhandled.

The embedding below translates each method into a Lean function.  A record
(`self.record_class(*values_list)`, a `namedtuple`) is modelled as the
ordered list of its field values; a Python dict is modelled as an
association list (unique keys, insertion order) or, for the per-function
tables, as a total function from function names, since `run_all`
initialises every registered name before any access.
-/

set_option autoImplicit false

namespace EdcUtils

/-- Python values, as far as the constructor's identity test
`raise_exceptions is True` distinguishes them: the `True` singleton versus
everything else (`False`, `None`, ints, strings, ...). -/
inductive PyObj where
  | pyBool (b : Bool)
  | pyNone
  | pyInt (n : Int)
  | pyStr (s : String)
  deriving DecidableEq

/-- Constructor line
`self.raise_exceptions = raise_exceptions if raise_exceptions is True else False`:
the stored flag is `true` exactly when the argument is the boolean `True`
itself; any other value, truthy or not, stores `False`. -/
def init_raise_exceptions (raise_exceptions : PyObj) : Bool :=
  match raise_exceptions with
  | .pyBool true => true
  | _ => false

/-- The `itertools.product(*opts)` call of `generate_combinations`: tuples
of one element per option list, in nested iteration order, the last list
varying fastest. -/
def pyProduct {α : Type} : List (List α) → List (List α)
  | [] => [[]]
  | l :: ls => l.flatMap (fun x => (pyProduct ls).map (fun vl => x :: vl))

/-- Method `generate_combinations`: for each `values_list` of
`itertools.product(*opts)` (one `opts_<field>` list per record field, in
field order) it yields `(self.record_class(*values_list), None)`. -/
def generate_combinations {α σ : Type} (opts : List (List α)) :
    List (List α × Option σ) :=
  (pyProduct opts).map (fun vl => (vl, none))

/-- One entry of `self.data_exceptions[fn_name]`, as `update_exceptions`
appends it: `[list(record), subject_visit]` when a subject visit is passed,
and `list(record)` alone when it is `None`. -/
inductive ExcEntry (V Ctx : Type) where
  | pair (record : List V) (ctx : Ctx)
  | bare (record : List V)
  deriving DecidableEq

/-- Whether an exception-log entry is a record/context pair
(`[list(record), subject_visit]`) rather than a bare record list. -/
def ExcEntry.isRecordCtx {V Ctx : Type} : ExcEntry V Ctx → Bool
  | .pair _ _ => true
  | .bare _ => false

/-- The data of the `ValueError` that `update_exceptions` raises when
`self.raise_exceptions` is set: its message is formatted from exactly the
classifier name and `list(record)`. -/
structure UnhandledAbort (V : Type) where
  fn_name : String
  opts : List V
  deriving DecidableEq

/-- Method `update_exceptions(fn_name, record, subject_visit=None)` acting
on one classifier's exception log: appends the entry (a record/context pair
when `subject_visit` is truthy, the bare record list otherwise), and then,
when `self.raise_exceptions` is set, raises the `ValueError` (modelled as
`some` abort in the second component). -/
def update_exceptions {V Ctx : Type} (raise_exceptions : Bool)
    (log : List (ExcEntry V Ctx)) (fn_name : String) (record : List V)
    (subject_visit : Option Ctx) :
    List (ExcEntry V Ctx) × Option (UnhandledAbort V) :=
  let log' := match subject_visit with
    | some sv => log ++ [ExcEntry.pair record sv]
    | none => log ++ [ExcEntry.bare record]
  (log', if raise_exceptions then some ⟨fn_name, record⟩ else none)

/-- Method `increment_counter(value, fn_name)` acting on the tally dict
`self.data_values[fn_name]`: a missing key is first inserted with count 0
(at the end, as Python dict insertion does), then the key's count is
incremented.  The dict is an association list with unique keys in
insertion order. -/
def increment_counter {V : Type} [DecidableEq V] (tally : List (V × Nat))
    (value : V) : List (V × Nat) :=
  match tally with
  | [] => [(value, 1)]
  | (k, c) :: rest =>
    if k = value then (k, c + 1) :: rest
    else (k, c) :: increment_counter rest value

/-- Loop of method `lookup_combinations`, with accumulator `found` (which
starts empty): a subject visit whose values list is already in `found` is
skipped; otherwise `(self.record_class(*values_list), subject_visit)` is
yielded, and the values list is appended to `found` only when
`self.use_unique_combinations` is set. -/
def lookup_combinations_from {V Ctx : Type} [DecidableEq V]
    (use_unique_combinations : Bool) (vlf : Ctx → List V) :
    List Ctx → List (List V) → List (List V × Ctx)
  | [], _ => []
  | sv :: svs, found =>
    let vl := vlf sv
    if vl ∈ found then
      lookup_combinations_from use_unique_combinations vlf svs found
    else
      (vl, sv) ::
        lookup_combinations_from use_unique_combinations vlf svs
          (if use_unique_combinations then found ++ [vl] else found)

/-- Method `lookup_combinations`: iterates `self.subject_visits` with an
initially empty `found` list. -/
def lookup_combinations {V Ctx : Type} [DecidableEq V]
    (use_unique_combinations : Bool) (vlf : Ctx → List V)
    (subject_visits : List Ctx) : List (List V × Ctx) :=
  lookup_combinations_from use_unique_combinations vlf subject_visits []

/-- Loop of method `values_list_from`: `values_list` starts as
`list(self.record_class._fields)` and, for each field name in field order,
the position `values_list.index(field_name)` (first occurrence by equality,
in the current, partially overwritten list) is overwritten with
`self.get_field_value(field_name, subject_visit)`. -/
def values_list_from_loop {α : Type} [DecidableEq α] (get_value : α → α) :
    List α → List α → List α
  | vl, [] => vl
  | vl, f :: fs =>
    values_list_from_loop get_value (vl.set (vl.indexOf f) (get_value f)) fs

/-- Method `values_list_from(subject_visit)`, with
`get_value field_name = self.get_field_value(field_name, subject_visit)`.
Field names and looked-up values share the type `α`, as they share the
Python list `values_list` and are compared by `==` in `list.index`. -/
def values_list_from {α : Type} [DecidableEq α] (get_value : α → α)
    (fields : List α) : List α :=
  values_list_from_loop get_value fields fields

/-- A source model class as method `objects` uses it:
`model.objects.get(subject_visit=subject_visit)` either returns an instance
(`some`) or raises `model.DoesNotExist` (`none`), in which case the blank
instance `model()` stands in. -/
structure Model (Ctx Inst : Type) where
  get : Ctx → Option Inst
  blank : Inst

/-- Method `objects(subject_visit).values()`: one instance per model, in
model order (`self.models` is a dict in insertion order of the model list),
with a blank instance used wherever the query raised `DoesNotExist`. -/
def objects {Ctx Inst : Type} (models : List (Model Ctx Inst))
    (subject_visit : Ctx) : List Inst :=
  models.map (fun m => (m.get subject_visit).getD m.blank)

/-- Loop of method `get_field_value`: `value` starts as `None`; the first
instance whose `getattr(instance, field_name)` succeeds supplies the value
and breaks the loop; an `AttributeError` (`none` in the attribute map) is
passed over silently. -/
def get_field_value_loop {α V : Type} (field_name : α) :
    List (α → Option V) → Option V
  | [] => none
  | inst :: rest =>
    match inst field_name with
    | some v => some v
    | none => get_field_value_loop field_name rest

/-- Method `get_field_value(field_name, subject_visit)`: probes the model
instances of `objects(subject_visit)` in order; `attr inst` is the
attribute map of an instance (`none` models `AttributeError`). -/
def get_field_value {α V Ctx Inst : Type} (attr : Inst → α → Option V)
    (models : List (Model Ctx Inst)) (field_name : α) (subject_visit : Ctx) :
    Option V :=
  get_field_value_loop field_name ((objects models subject_visit).map attr)

/-- The mutable run state: `self.data_values` (per classifier name, a tally
dict from output value to count) and `self.data_exceptions` (per classifier
name, the exception log).  `run_all` initialises both tables for every
registered name before any access, so they are modelled as total functions
from names. -/
structure RunState (V Ctx : Type) where
  data_values : String → List (V × Nat)
  data_exceptions : String → List (ExcEntry V Ctx)

/-- What one classifier method does when applied to
`(record, subject_visit)`: the argument triples of the
`update_exceptions(fn_name, record, subject_visit)` calls it makes, in
order, followed by the value it returns if none of those calls raised. -/
structure ClassifierRun (V Ctx : Type) where
  unhandled_calls : List (String × List V × Option Ctx)
  result : V

/-- A classifier method `fn_<name>(record, subject_visit)`. -/
abbrev Classifier (V Ctx : Type) :=
  List V → Option Ctx → ClassifierRun V Ctx

/-- Performs a classifier's `update_exceptions` calls in order on the
exception tables.  When a call raises (raise-on-exception set), the
`ValueError` propagates at once: later calls of the classifier and its
return value never happen, and the tables keep the append the raising call
already made. -/
def apply_unhandled_calls {V Ctx : Type} (raise_exceptions : Bool)
    (exc : String → List (ExcEntry V Ctx)) :
    List (String × List V × Option Ctx) →
      Except (UnhandledAbort V × (String → List (ExcEntry V Ctx)))
        (String → List (ExcEntry V Ctx))
  | [] => .ok exc
  | (n, r, s) :: rest =>
    let res := update_exceptions raise_exceptions (exc n) n r s
    let exc' := fun m => if m = n then res.1 else exc m
    match res.2 with
    | some a => .error (a, exc')
    | none => apply_unhandled_calls raise_exceptions exc' rest

/-- One iteration of the inner loop of `run_all`:
`value = getattr(self, fn_name)(record, subject_visit)` followed by
`self.increment_counter(value, fn_name)`.  If the classifier body raises
through `update_exceptions`, the exception propagates and no tally is
incremented. -/
def run_fn {V Ctx : Type} [DecidableEq V] (raise_exceptions : Bool)
    (st : RunState V Ctx) (fn_name : String) (fn : Classifier V Ctx)
    (record : List V) (subject_visit : Option Ctx) :
    Except (UnhandledAbort V × RunState V Ctx) (RunState V Ctx) :=
  let cr := fn record subject_visit
  match apply_unhandled_calls raise_exceptions st.data_exceptions
      cr.unhandled_calls with
  | .error (a, exc') => .error (a, { st with data_exceptions := exc' })
  | .ok exc' =>
    .ok { data_values := fun m =>
            if m = fn_name then
              increment_counter (st.data_values fn_name) cr.result
            else st.data_values m,
          data_exceptions := exc' }

/-- Inner loop of `run_all`: applies every registered classifier, in
registration order, to one combination. -/
def run_fns {V Ctx : Type} [DecidableEq V] (raise_exceptions : Bool)
    (record : List V) (subject_visit : Option Ctx) :
    List (String × Classifier V Ctx) → RunState V Ctx →
      Except (UnhandledAbort V × RunState V Ctx) (RunState V Ctx)
  | [], st => .ok st
  | (n, fn) :: fns, st =>
    match run_fn raise_exceptions st n fn record subject_visit with
    | .error e => .error e
    | .ok st' => run_fns raise_exceptions record subject_visit fns st'

/-- Outer loop of `run_all`: folds the inner loop over the combinations in
sequence; a propagating `ValueError` stops the whole run. -/
def run_combinations {V Ctx : Type} [DecidableEq V] (raise_exceptions : Bool)
    (fns : List (String × Classifier V Ctx)) :
    List (List V × Option Ctx) → RunState V Ctx →
      Except (UnhandledAbort V × RunState V Ctx) (RunState V Ctx)
  | [], st => .ok st
  | (r, s) :: combos, st =>
    match run_fns raise_exceptions r s fns st with
    | .error e => .error e
    | .ok st' => run_combinations raise_exceptions fns combos st'

/-- Method `run_all`: initialises `self.data_values[fn_name]` to an empty
dict and `self.data_exceptions[fn_name]` to an empty list for every
registered name, then processes every combination. -/
def run_all {V Ctx : Type} [DecidableEq V] (raise_exceptions : Bool)
    (fns : List (String × Classifier V Ctx))
    (combinations : List (List V × Option Ctx)) :
    Except (UnhandledAbort V × RunState V Ctx) (RunState V Ctx) :=
  run_combinations raise_exceptions fns combinations
    { data_values := fun _ => [], data_exceptions := fun _ => [] }

/-- Sum of the tally counts over all output values recorded in one
classifier's tally dict. -/
def sumTally {V : Type} (tally : List (V × Nat)) : Nat :=
  (tally.map Prod.snd).sum

/-- Dict lookup in a tally dict (first entry with the key; keys are
unique). -/
def tallyGet {V : Type} [DecidableEq V] (tally : List (V × Nat)) (value : V) :
    Option Nat :=
  (tally.find? (fun p => p.1 = value)).map Prod.snd

/-! ## Theorems -/

/-- C5 counterexample: with the raise flag set, `update_exceptions` does
abort (it raises the `ValueError`), yet the classifier's exception log is
not unchanged: the unhandled record was appended before the raise. -/
theorem update_exceptions_c5_counterexample :
    ((update_exceptions true ([] : List (ExcEntry Nat Unit)) "fn_a" [1, 2]
        none).2).isSome = true
    ∧ (update_exceptions true ([] : List (ExcEntry Nat Unit)) "fn_a" [1, 2]
        none).1 ≠ [] := by
  exact ⟨rfl, by decide⟩

/-- C5 (amended): with the raise flag set, `update_exceptions` first
appends the combination to the classifier's exception log and then aborts:
on abort the log equals the old log with the new entry appended, and the
abort carries the classifier name and the record's field values. -/
theorem update_exceptions_appends_then_aborts {V Ctx : Type}
    (log : List (ExcEntry V Ctx)) (fn_name : String) (record : List V)
    (subject_visit : Option Ctx) :
    (update_exceptions true log fn_name record subject_visit).2
        = some ⟨fn_name, record⟩
    ∧ (update_exceptions true log fn_name record subject_visit).1
        = log ++ [match subject_visit with
            | some sv => ExcEntry.pair record sv
            | none => ExcEntry.bare record] := by
  refine ⟨rfl, ?_⟩
  cases subject_visit <;> rfl

/-- C7 counterexample: a call of `update_exceptions` with no source
context (a synthetically generated combination) appends the bare record
list, which is not a record/context pair. -/
theorem update_exceptions_c7_counterexample :
    (update_exceptions false ([] : List (ExcEntry Nat Unit)) "fn_a" [0]
        none).1 = [ExcEntry.bare [0]]
    ∧ (ExcEntry.bare [0] : ExcEntry Nat Unit).isRecordCtx = false := by
  exact ⟨rfl, rfl⟩

/-- C7 (amended): an entry appended by `update_exceptions` is a
record/context pair exactly when a source context is present; a call with
no source context appends the bare record list instead. -/
theorem update_exceptions_entry_shape {V Ctx : Type} (raise_exceptions : Bool)
    (log : List (ExcEntry V Ctx)) (fn_name : String) (record : List V) :
    (∀ ctx : Ctx,
      (update_exceptions raise_exceptions log fn_name record (some ctx)).1
          = log ++ [ExcEntry.pair record ctx]
        ∧ (ExcEntry.pair record ctx).isRecordCtx = true)
    ∧ (update_exceptions raise_exceptions log fn_name record none).1
          = log ++ [ExcEntry.bare record]
    ∧ (ExcEntry.bare record : ExcEntry V Ctx).isRecordCtx = false := by
  exact ⟨fun ctx => ⟨rfl, rfl⟩, rfl, rfl⟩

/-- C10: the stored raise flag is `true` only when the constructor
argument is the boolean `True` itself; every other value (truthy or not)
stores `false`, and `update_exceptions` under the stored flag then signals
no abort. -/
theorem init_raise_exceptions_only_literal_true {V Ctx : Type} (o : PyObj)
    (h : o ≠ PyObj.pyBool true) :
    init_raise_exceptions (PyObj.pyBool true) = true
    ∧ init_raise_exceptions o = false
    ∧ ∀ (log : List (ExcEntry V Ctx)) (fn_name : String) (record : List V)
        (sv : Option Ctx),
        (update_exceptions (init_raise_exceptions o) log fn_name record
            sv).2 = none := by
  have hfalse : init_raise_exceptions o = false := by
    cases o with
    | pyBool b =>
      cases b with
      | false => rfl
      | true => exact absurd rfl h
    | pyNone => rfl
    | pyInt n => rfl
    | pyStr s => rfl
  refine ⟨rfl, hfalse, fun log fn_name record sv => ?_⟩
  rw [hfalse]
  rfl

/-- C10 witness: the truthy value `1` still stores `false` and does not
abort. -/
theorem init_raise_exceptions_only_literal_true_witness :
    init_raise_exceptions (PyObj.pyInt 1) = false
    ∧ (update_exceptions (init_raise_exceptions (PyObj.pyInt 1))
        ([] : List (ExcEntry Nat Unit)) "fn_a" [0] none).2 = none := by
  have h := @init_raise_exceptions_only_literal_true Nat Unit
    (PyObj.pyInt 1) (by decide)
  exact ⟨h.2.1, h.2.2 [] "fn_a" [0] none⟩

/-- Helper for C8: with the unique-combinations flag unset the `found`
accumulator never grows, so no subject visit is ever skipped. -/
theorem lookup_combinations_from_no_unique {V Ctx : Type} [DecidableEq V]
    (vlf : Ctx → List V) :
    ∀ svs : List Ctx,
      lookup_combinations_from false vlf svs []
        = svs.map (fun sv => (vlf sv, sv)) := by
  intro svs
  induction svs with
  | nil => rfl
  | cons sv svs ih =>
    simp only [lookup_combinations_from, List.not_mem_nil, if_false, if_neg,
      Bool.false_eq_true, List.map_cons]
    rw [ih]

/-- C8: with the use-unique-combinations flag unset, `lookup_combinations`
yields one `(record, subject_visit)` pair for every subject visit, in
iteration order, repeats preserved. -/
theorem lookup_combinations_no_unique_all {V Ctx : Type} [DecidableEq V]
    (vlf : Ctx → List V) (subject_visits : List Ctx) :
    lookup_combinations false vlf subject_visits
      = subject_visits.map (fun sv => (vlf sv, sv)) := by
  exact lookup_combinations_from_no_unique vlf subject_visits

/-- C6: with fields `a`, `b` and looked-up values `b` for field `a` and
`x` for field `b`, `values_list_from` returns the list `x`, `b`: the value
for field `b` lands at position 0 (because `list.index` finds the slot
whose current content collides with the field name) and position 1 keeps
the literal field name, instead of the field-ordered list `b`, `x` that
the method's docstring describes. -/
theorem values_list_from_c6_failing :
    values_list_from (fun f => if f = "a" then "b" else "x") ["a", "b"]
        = ["x", "b"]
    ∧ ["x", "b"] ≠ ["b", "x"] := by
  exact ⟨rfl, by decide⟩

/-- Helper for C1: membership in the product is pointwise membership in
the option lists. -/
theorem mem_pyProduct {α : Type} (opts : List (List α)) (vl : List α) :
    vl ∈ pyProduct opts ↔ List.Forall₂ (fun v l => v ∈ l) vl opts := by
  induction opts generalizing vl with
  | nil =>
    simp [pyProduct, List.forall₂_nil_right_iff]
  | cons l ls ih =>
    simp only [pyProduct, List.mem_flatMap, List.mem_map,
      List.forall₂_cons_right_iff]
    constructor
    · rintro ⟨x, hx, t, ht, rfl⟩
      exact ⟨x, t, hx, (ih t).mp ht, rfl⟩
    · rintro ⟨x, t, hx, ht, rfl⟩
      exact ⟨x, hx, t, (ih t).mpr ht, rfl⟩

/-- Helper for C1: when every option list is duplicate-free, so is the
product. -/
theorem nodup_pyProduct {α : Type} (opts : List (List α))
    (h : ∀ l ∈ opts, l.Nodup) : (pyProduct opts).Nodup := by
  induction opts with
  | nil => simp [pyProduct]
  | cons l ls ih =>
    have hl : l.Nodup := h l (List.mem_cons_self l ls)
    have hls : (pyProduct ls).Nodup := ih fun t ht => h t (List.mem_cons_of_mem l ht)
    simp only [pyProduct]
    rw [List.nodup_flatMap]
    refine ⟨fun x _ => hls.map fun a b hab => ?_, ?_⟩
    · exact List.tail_eq_of_cons_eq hab
    · refine hl.imp fun hxy => ?_
      intro t ht ht'
      obtain ⟨a, _, ha⟩ := List.mem_map.mp ht
      obtain ⟨b, _, hb⟩ := List.mem_map.mp ht'
      exact hxy (List.head_eq_of_cons_eq (ha.trans hb.symm))

/-- C1: `generate_combinations` yields exactly the cartesian product of
the option lists — each value tuple once (when the option lists are
duplicate-free), membership being pointwise membership in the option
lists — every tuple paired with `None`, and in nested iteration order:
option lists `[0, 1]` and `[0, 1]` yield `(0,0),(0,1),(1,0),(1,1)`. -/
theorem generate_combinations_spec {α : Type} (opts : List (List α))
    (h : ∀ l ∈ opts, l.Nodup) :
    (generate_combinations opts : List (List α × Option Unit)).map Prod.fst
        = pyProduct opts
    ∧ (∀ p ∈ (generate_combinations opts : List (List α × Option Unit)),
        p.2 = none)
    ∧ (generate_combinations opts : List (List α × Option Unit)).Nodup
    ∧ (∀ vl, vl ∈ pyProduct opts ↔ List.Forall₂ (fun v l => v ∈ l) vl opts)
    ∧ (generate_combinations [[0, 1], [0, 1]] : List (List Nat × Option Unit))
        = [([0, 0], none), ([0, 1], none), ([1, 0], none), ([1, 1], none)] := by
  refine ⟨?_, ?_, ?_, fun vl => mem_pyProduct opts vl, rfl⟩
  · simp [generate_combinations, Function.comp_def]
  · intro p hp
    obtain ⟨vl, _, rfl⟩ := List.mem_map.mp hp
    rfl
  · exact (nodup_pyProduct opts h).map fun a b hab => congrArg Prod.fst hab

/-- C1 counterexample: an option list with a repeated option makes the
generator yield the same value tuple twice, so "each value-tuple exactly
once" does not hold for every option-list input. -/
theorem generate_combinations_c1_counterexample :
    (generate_combinations [[0, 0]] : List (List Nat × Option Unit))
        = [([0], none), ([0], none)]
    ∧ ¬ ((generate_combinations [[0, 0]] : List (List Nat × Option Unit)).map
        Prod.fst).Nodup := by
  exact ⟨rfl, by decide⟩

/-- C1 witness: the spec's own example, with duplicate-free option
lists. -/
theorem generate_combinations_spec_witness :
    (generate_combinations [[0, 1], [0, 1]] : List (List Nat × Option Unit))
        = [([0, 0], none), ([0, 1], none), ([1, 0], none), ([1, 1], none)]
    ∧ (generate_combinations [[0, 1], [0, 1]]
        : List (List Nat × Option Unit)).Nodup := by
  have h := generate_combinations_spec [[0, 1], [0, 1]] (by decide)
  exact ⟨h.2.2.2.2, h.2.2.1⟩

/-- Helper for C4: every yielded pair carries the values list of its own
subject visit, its subject visit comes from the iterated list, and its
values list was not in the `found` accumulator. -/
theorem lookup_combinations_from_shape {V Ctx : Type} [DecidableEq V]
    (vlf : Ctx → List V) :
    ∀ (svs : List Ctx) (found : List (List V))
      (p : List V × Ctx), p ∈ lookup_combinations_from true vlf svs found →
      p.1 = vlf p.2 ∧ p.2 ∈ svs ∧ p.1 ∉ found := by
  intro svs
  induction svs with
  | nil => intro found p hp; simp [lookup_combinations_from] at hp
  | cons sv svs ih =>
    intro found p hp
    simp only [lookup_combinations_from] at hp
    by_cases hmem : vlf sv ∈ found
    · rw [if_pos hmem] at hp
      obtain ⟨h1, h2, h3⟩ := ih found p hp
      exact ⟨h1, List.mem_cons_of_mem sv h2, h3⟩
    · rw [if_neg hmem] at hp
      rcases List.mem_cons.mp hp with hp | hp
      · rw [hp]
        exact ⟨rfl, List.mem_cons_self sv svs, hmem⟩
      · obtain ⟨h1, h2, h3⟩ := ih (found ++ [vlf sv]) p hp
        refine ⟨h1, List.mem_cons_of_mem sv h2, fun hc => h3 ?_⟩
        exact List.mem_append_left [vlf sv] hc

/-- Helper for C4: the yielded value tuples are pairwise distinct. -/
theorem lookup_combinations_from_nodup {V Ctx : Type} [DecidableEq V]
    (vlf : Ctx → List V) :
    ∀ (svs : List Ctx) (found : List (List V)),
      ((lookup_combinations_from true vlf svs found).map Prod.fst).Nodup := by
  intro svs
  induction svs with
  | nil => intro found; simp [lookup_combinations_from]
  | cons sv svs ih =>
    intro found
    simp only [lookup_combinations_from]
    by_cases hmem : vlf sv ∈ found
    · rw [if_pos hmem]; exact ih found
    · rw [if_neg hmem]
      simp only [if_pos rfl, List.map_cons, List.nodup_cons]
      refine ⟨?_, ih (found ++ [vlf sv])⟩
      intro hc
      obtain ⟨p, hp, hp1⟩ := List.mem_map.mp hc
      have h3 := (lookup_combinations_from_shape vlf svs (found ++ [vlf sv]) p hp).2.2
      exact h3 (by rw [hp1]; exact List.mem_append_right found (List.mem_singleton.mpr rfl))

/-- Helper for C4: every subject visit's values list is either already in
the accumulator or represented among the yielded pairs. -/
theorem lookup_combinations_from_complete {V Ctx : Type} [DecidableEq V]
    (vlf : Ctx → List V) :
    ∀ (svs : List Ctx) (found : List (List V)) (sv : Ctx), sv ∈ svs →
      vlf sv ∈ found
      ∨ ∃ p ∈ lookup_combinations_from true vlf svs found, p.1 = vlf sv := by
  intro svs
  induction svs with
  | nil => intro found sv hsv; simp at hsv
  | cons sv0 svs ih =>
    intro found sv hsv
    simp only [lookup_combinations_from]
    by_cases hmem : vlf sv0 ∈ found
    · rw [if_pos hmem]
      rcases List.mem_cons.mp hsv with rfl | hsv'
      · exact Or.inl hmem
      · exact ih found sv hsv'
    · rw [if_neg hmem]
      rcases List.mem_cons.mp hsv with rfl | hsv'
      · exact Or.inr ⟨(vlf sv, sv), List.mem_cons_self _ _, rfl⟩
      · rcases ih (found ++ [vlf sv0]) sv hsv' with hin | ⟨p, hp, hp1⟩
        · rcases List.mem_append.mp hin with hin | hin
          · exact Or.inl hin
          · exact Or.inr ⟨(vlf sv0, sv0), List.mem_cons_self _ _,
              (List.mem_singleton.mp hin).symm⟩
        · exact Or.inr ⟨p, List.mem_cons_of_mem _ hp, hp1⟩

/-- Helper for C4: each yielded pair's subject visit is the first one of
the iterated list whose values list equals the pair's value tuple. -/
theorem lookup_combinations_from_first {V Ctx : Type} [DecidableEq V]
    (vlf : Ctx → List V) :
    ∀ (svs : List Ctx) (found : List (List V)) (p : List V × Ctx),
      p ∈ lookup_combinations_from true vlf svs found →
      ∃ l₁ l₂, svs = l₁ ++ p.2 :: l₂ ∧ ∀ sv' ∈ l₁, vlf sv' ≠ p.1 := by
  intro svs
  induction svs with
  | nil => intro found p hp; simp [lookup_combinations_from] at hp
  | cons sv svs ih =>
    intro found p hp
    simp only [lookup_combinations_from] at hp
    by_cases hmem : vlf sv ∈ found
    · rw [if_pos hmem] at hp
      obtain ⟨l₁, l₂, heq, hne⟩ := ih found p hp
      have hnotin := (lookup_combinations_from_shape vlf svs found p hp).2.2
      refine ⟨sv :: l₁, l₂, by rw [heq, List.cons_append], ?_⟩
      intro sv' hsv'
      rcases List.mem_cons.mp hsv' with rfl | hsv'
      · exact fun hc => hnotin (hc ▸ hmem)
      · exact hne sv' hsv'
    · rw [if_neg hmem] at hp
      rcases List.mem_cons.mp hp with hp | hp
      · exact ⟨[], svs, by rw [hp]; rfl, by intro sv' hsv'; simp at hsv'⟩
      · obtain ⟨l₁, l₂, heq, hne⟩ := ih (found ++ [vlf sv]) p hp
        have hnotin := (lookup_combinations_from_shape vlf svs _ p hp).2.2
        refine ⟨sv :: l₁, l₂, by rw [heq, List.cons_append], ?_⟩
        intro sv' hsv'
        rcases List.mem_cons.mp hsv' with rfl | hsv'
        · intro hc
          exact hnotin (hc ▸ List.mem_append_right found (List.mem_singleton.mpr rfl))
        · exact hne sv' hsv'

/-- C4: with the use-unique-combinations flag set, `lookup_combinations`
yields no two pairs with equal value tuples; every subject visit's value
tuple is represented by exactly one yielded pair, and each yielded pair
carries the first subject visit (in iteration order) that produced its
value tuple. -/
theorem lookup_combinations_unique_spec {V Ctx : Type} [DecidableEq V]
    (vlf : Ctx → List V) (subject_visits : List Ctx) :
    ((lookup_combinations true vlf subject_visits).map Prod.fst).Nodup
    ∧ (∀ sv ∈ subject_visits,
        ∃ p ∈ lookup_combinations true vlf subject_visits, p.1 = vlf sv)
    ∧ ∀ p ∈ lookup_combinations true vlf subject_visits,
        p.1 = vlf p.2 ∧ p.2 ∈ subject_visits
        ∧ ∃ l₁ l₂, subject_visits = l₁ ++ p.2 :: l₂
            ∧ ∀ sv' ∈ l₁, vlf sv' ≠ p.1 := by
  refine ⟨lookup_combinations_from_nodup vlf subject_visits [], ?_, ?_⟩
  · intro sv hsv
    rcases lookup_combinations_from_complete vlf subject_visits [] sv hsv with hin | h
    · simp at hin
    · exact h
  · intro p hp
    obtain ⟨h1, h2, _⟩ := lookup_combinations_from_shape vlf subject_visits [] p hp
    exact ⟨h1, h2, lookup_combinations_from_first vlf subject_visits [] p hp⟩

/-- C4 witness: subject visits `0, 1, 2` with values list `sv % 2` give
duplicate-free value tuples, and the pair for the duplicated tuple carries
the first producing subject visit. -/
theorem lookup_combinations_unique_spec_witness :
    ((lookup_combinations true (fun sv : Nat => [sv % 2]) [0, 1, 2]).map
        Prod.fst).Nodup
    ∧ lookup_combinations true (fun sv : Nat => [sv % 2]) [0, 1, 2]
        = [([0], 0), ([1], 1)] := by
  have h := lookup_combinations_unique_spec (fun sv : Nat => [sv % 2]) [0, 1, 2]
  exact ⟨h.1, by decide⟩

/-- Helper for C9: the probing loop returns the first successful
attribute lookup, skipping over failures. -/
theorem get_field_value_loop_first {α V : Type} (field_name : α)
    (l₁ : List (α → Option V)) (inst : α → Option V) (l₂ : List (α → Option V))
    (v : V) (h1 : ∀ i ∈ l₁, i field_name = none)
    (h2 : inst field_name = some v) :
    get_field_value_loop field_name (l₁ ++ inst :: l₂) = some v := by
  induction l₁ with
  | nil => simp [get_field_value_loop, h2]
  | cons i l₁ ih =>
    have hi : i field_name = none := h1 i (List.mem_cons_self i l₁)
    simp only [List.cons_append, get_field_value_loop, hi]
    exact ih fun j hj => h1 j (List.mem_cons_of_mem i hj)

/-- Helper for C9: when every attribute lookup fails, the loop falls
through to `None`. -/
theorem get_field_value_loop_all_none {α V : Type} (field_name : α)
    (l : List (α → Option V)) (h : ∀ i ∈ l, i field_name = none) :
    get_field_value_loop field_name l = (none : Option V) := by
  induction l with
  | nil => rfl
  | cons i l ih =>
    have hi : i field_name = none := h i (List.mem_cons_self i l)
    simp only [get_field_value_loop, hi]
    exact ih fun j hj => h j (List.mem_cons_of_mem i hj)

/-- C9: `get_field_value` returns the attribute value from the first model
instance, in model order, that exposes the attribute; attribute-lookup
failures on earlier instances are silently skipped, and when no instance
exposes the attribute the result is `None` rather than an error. -/
theorem get_field_value_first_exposing {α V Ctx Inst : Type}
    (attr : Inst → α → Option V) (models : List (Model Ctx Inst))
    (field_name : α) (sv : Ctx) :
    (∀ (l₁ : List Inst) (inst : Inst) (l₂ : List Inst) (v : V),
        objects models sv = l₁ ++ inst :: l₂ →
        (∀ i ∈ l₁, attr i field_name = none) →
        attr inst field_name = some v →
        get_field_value attr models field_name sv = some v)
    ∧ ((∀ i ∈ objects models sv, attr i field_name = none) →
        get_field_value attr models field_name sv = none) := by
  constructor
  · intro l₁ inst l₂ v hsplit hnone hv
    rw [get_field_value, hsplit, List.map_append, List.map_cons]
    refine get_field_value_loop_first field_name _ _ _ v ?_ hv
    intro i hi
    obtain ⟨j, hj, rfl⟩ := List.mem_map.mp hi
    exact hnone j hj
  · intro hall
    rw [get_field_value]
    refine get_field_value_loop_all_none field_name _ ?_
    intro i hi
    obtain ⟨j, hj, rfl⟩ := List.mem_map.mp hi
    exact hall j hj

/-- Concrete models for the C9 witness: the first model's query raises
`DoesNotExist` (so its blank instance, exposing nothing, stands in) and
the second model's instance exposes the field `x` with value 5. -/
def c9models : List (Model Unit (String → Option Nat)) :=
  [{ get := fun _ => none, blank := fun _ => none },
   { get := fun _ => some (fun n => if n = "x" then some 5 else none),
     blank := fun _ => none }]

/-- C9 witness: probing skips the first (attribute-less) instance and
returns the second instance's value. -/
theorem get_field_value_first_exposing_witness :
    get_field_value (fun i => i) c9models "x" () = some 5 := by
  refine (get_field_value_first_exposing (fun i => i) c9models "x" ()).1
    [fun _ => none] (fun n => if n = "x" then some 5 else none) [] 5 rfl ?_ rfl
  intro i hi
  rw [List.mem_singleton.mp hi]

/-- Helper for C2: one `increment_counter` call raises the total of the
tally counts by exactly one. -/
theorem sumTally_increment_counter {V : Type} [DecidableEq V]
    (tally : List (V × Nat)) (value : V) :
    sumTally (increment_counter tally value) = sumTally tally + 1 := by
  induction tally with
  | nil => rfl
  | cons p rest ih =>
    obtain ⟨k, c⟩ := p
    by_cases h : k = value
    · simp only [increment_counter, if_pos h, sumTally, List.map_cons,
        List.sum_cons]
      omega
    · simp only [increment_counter, if_neg h, sumTally, List.map_cons,
        List.sum_cons] at ih ⊢
      omega

/-- Helper for C2: tally lookup on a nonempty tally dict. -/
theorem tallyGet_cons {V : Type} [DecidableEq V] (k : V) (c : Nat)
    (rest : List (V × Nat)) (value : V) :
    tallyGet ((k, c) :: rest) value
      = if k = value then some c else tallyGet rest value := by
  by_cases h : k = value
  · simp [tallyGet, List.find?, h]
  · simp [tallyGet, List.find?, h]

/-- Helper for C2: `increment_counter` raises the incremented value's
count by one (a missing key reads as count zero). -/
theorem tallyGet_increment_counter_self {V : Type} [DecidableEq V]
    (tally : List (V × Nat)) (value : V) :
    tallyGet (increment_counter tally value) value
      = some ((tallyGet tally value).getD 0 + 1) := by
  induction tally with
  | nil => simp [increment_counter, tallyGet, List.find?]
  | cons p rest ih =>
    obtain ⟨k, c⟩ := p
    by_cases h : k = value
    · simp only [increment_counter, if_pos h, tallyGet_cons, if_pos h]
      rfl
    · simp only [increment_counter, if_neg h, tallyGet_cons, if_neg h]
      exact ih

/-- Helper for C2: `increment_counter` leaves every other value's count
unchanged. -/
theorem tallyGet_increment_counter_other {V : Type} [DecidableEq V]
    (tally : List (V × Nat)) (value w : V) (hw : w ≠ value) :
    tallyGet (increment_counter tally value) w = tallyGet tally w := by
  induction tally with
  | nil =>
    have hvw : ¬ value = w := fun h => hw h.symm
    simp [increment_counter, tallyGet, List.find?, hvw]
  | cons p rest ih =>
    obtain ⟨k, c⟩ := p
    by_cases h : k = value
    · subst h
      have hkw : ¬ k = w := fun hc => hw hc.symm
      simp [increment_counter, tallyGet_cons, hkw]
    · simp only [increment_counter, if_neg h, tallyGet_cons]
      rw [ih]

/-- Helper for C2: a successful `run_fn` updates exactly the named
classifier's tally, incrementing it with the classifier's return value. -/
theorem run_fn_ok_data_values {V Ctx : Type} [DecidableEq V] (raise : Bool)
    (st : RunState V Ctx) (n : String) (fn : Classifier V Ctx) (r : List V)
    (s : Option Ctx) (st' : RunState V Ctx)
    (hok : run_fn raise st n fn r s = .ok st') :
    st'.data_values = fun m =>
      if m = n then increment_counter (st.data_values n) (fn r s).result
      else st.data_values m := by
  simp only [run_fn] at hok
  cases hac : apply_unhandled_calls raise st.data_exceptions
      (fn r s).unhandled_calls with
  | error e =>
    obtain ⟨a, exc'⟩ := e
    rw [hac] at hok
    simp at hok
  | ok exc' =>
    rw [hac] at hok
    simp only [Except.ok.injEq] at hok
    rw [← hok]

/-- Helper for C2: a completed inner loop increments every registered
classifier's tally sum once and leaves other names' tallies unchanged. -/
theorem run_fns_ok_data_values {V Ctx : Type} [DecidableEq V] (raise : Bool)
    (r : List V) (s : Option Ctx) :
    ∀ (fns : List (String × Classifier V Ctx)) (st st' : RunState V Ctx),
      (fns.map Prod.fst).Nodup →
      run_fns raise r s fns st = .ok st' →
      (∀ p ∈ fns, sumTally (st'.data_values p.1)
          = sumTally (st.data_values p.1) + 1)
      ∧ ∀ m, m ∉ fns.map Prod.fst → st'.data_values m = st.data_values m := by
  intro fns
  induction fns with
  | nil =>
    intro st st' _ hok
    simp only [run_fns, Except.ok.injEq] at hok
    subst hok
    exact ⟨by simp, fun m _ => rfl⟩
  | cons p fns ih =>
    obtain ⟨n0, fn⟩ := p
    intro st st' hnd hok
    simp only [run_fns] at hok
    cases hfn : run_fn raise st n0 fn r s with
    | error e => rw [hfn] at hok; simp at hok
    | ok st1 =>
      rw [hfn] at hok
      have hdv := run_fn_ok_data_values raise st n0 fn r s st1 hfn
      simp only [List.map_cons, List.nodup_cons] at hnd
      obtain ⟨hn0, hnd'⟩ := hnd
      obtain ⟨hsum, hother⟩ := ih st1 st' hnd' hok
      constructor
      · intro q hq
        rcases List.mem_cons.mp hq with rfl | hq'
        · rw [hother n0 hn0, hdv]
          simp [sumTally_increment_counter]
        · have hne : q.1 ≠ n0 := by
            intro hc
            exact hn0 (hc ▸ List.mem_map_of_mem Prod.fst hq')
          rw [hsum q hq', hdv]
          simp [hne]
      · intro m hm
        simp only [List.map_cons, List.mem_cons, not_or] at hm
        obtain ⟨hm0, hmfns⟩ := hm
        rw [hother m hmfns, hdv]
        simp [hm0]

/-- Helper for C2: a completed run adds the number of combinations
processed to every registered classifier's tally sum. -/
theorem run_combinations_ok_sums {V Ctx : Type} [DecidableEq V] (raise : Bool)
    (fns : List (String × Classifier V Ctx))
    (hnd : (fns.map Prod.fst).Nodup) :
    ∀ (combos : List (List V × Option Ctx)) (st st' : RunState V Ctx),
      run_combinations raise fns combos st = .ok st' →
      ∀ p ∈ fns, sumTally (st'.data_values p.1)
        = sumTally (st.data_values p.1) + combos.length := by
  intro combos
  induction combos with
  | nil =>
    intro st st' hok q hq
    simp only [run_combinations, Except.ok.injEq] at hok
    subst hok
    simp
  | cons c combos ih =>
    obtain ⟨r, s⟩ := c
    intro st st' hok q hq
    simp only [run_combinations] at hok
    cases hfns : run_fns raise r s fns st with
    | error e => rw [hfns] at hok; simp at hok
    | ok st1 =>
      rw [hfns] at hok
      have h1 := (run_fns_ok_data_values raise r s fns st st1 hnd hfns).1 q hq
      have h2 := ih st1 st' hok q hq
      rw [h2, h1, List.length_cons]
      omega

/-- C2: after a completed run (no abort), every registered classifier's
tally counts sum to the number of combinations processed; and each
`increment_counter` call raises exactly one count — the incremented
value's — by one, leaving every other count unchanged. -/
theorem run_all_tally_totals {V Ctx : Type} [DecidableEq V] (raise : Bool)
    (fns : List (String × Classifier V Ctx))
    (combos : List (List V × Option Ctx))
    (hnd : (fns.map Prod.fst).Nodup) (st' : RunState V Ctx)
    (hok : run_all raise fns combos = .ok st') :
    (∀ p ∈ fns, sumTally (st'.data_values p.1) = combos.length)
    ∧ ∀ (tally : List (V × Nat)) (value : V),
        sumTally (increment_counter tally value) = sumTally tally + 1
        ∧ tallyGet (increment_counter tally value) value
            = some ((tallyGet tally value).getD 0 + 1)
        ∧ ∀ w, w ≠ value →
            tallyGet (increment_counter tally value) w = tallyGet tally w := by
  constructor
  · intro q hq
    have h := run_combinations_ok_sums raise fns hnd combos _ st' hok q hq
    simpa [sumTally] using h
  · intro tally value
    exact ⟨sumTally_increment_counter tally value,
      tallyGet_increment_counter_self tally value,
      fun w hw => tallyGet_increment_counter_other tally value w hw⟩

/-- Classifier for the C2 witness: never unhandled, always returns 7. -/
def c2fn : Classifier Nat Unit := fun _ _ => ⟨[], 7⟩

/-- C2 witness: a two-combination run tallies a total of 2 for the one
registered classifier. -/
theorem run_all_tally_totals_witness :
    (run_all false [("fn_a", c2fn)] [([0], none), ([1], none)]).map
        (fun st => sumTally (st.data_values "fn_a")) = Except.ok 2 := by
  obtain ⟨st', hst⟩ :
      ∃ st', run_all false [("fn_a", c2fn)] [([0], none), ([1], none)]
        = .ok st' := ⟨_, rfl⟩
  have h := (run_all_tally_totals false [("fn_a", c2fn)]
    [([0], none), ([1], none)] (by simp) st' hst).1 ("fn_a", c2fn) (by simp)
  rw [hst]
  simp only [Except.map]
  exact congrArg Except.ok (by simpa using h)

/-- Projection of a run result onto the raised `ValueError` data: `some`
abort when the run failed, `none` when it completed. -/
def abortInfo {V Ctx : Type} :
    Except (UnhandledAbort V × RunState V Ctx) (RunState V Ctx) →
      Option (UnhandledAbort V)
  | .error e => some e.1
  | .ok _ => none

/-- Helper for C3: a run over a prefix that completes continues into the
rest of the combinations from the reached state. -/
theorem run_combinations_append_ok {V Ctx : Type} [DecidableEq V]
    (raise : Bool) (fns : List (String × Classifier V Ctx)) :
    ∀ (a b : List (List V × Option Ctx)) (st st1 : RunState V Ctx),
      run_combinations raise fns a st = .ok st1 →
      run_combinations raise fns (a ++ b) st
        = run_combinations raise fns b st1 := by
  intro a
  induction a with
  | nil =>
    intro b st st1 h
    simp only [run_combinations, Except.ok.injEq] at h
    subst h
    rfl
  | cons c a ih =>
    obtain ⟨r, s⟩ := c
    intro b st st1 h
    simp only [run_combinations, List.cons_append] at h ⊢
    cases hfns : run_fns raise r s fns st with
    | error e => rw [hfns] at h; simp at h
    | ok st2 =>
      rw [hfns] at h
      exact ih b st2 st1 h

/-- Helper for C3: a classifier that makes no `update_exceptions` call
never aborts `run_fn`; the state advances by its tally increment. -/
theorem run_fn_no_calls {V Ctx : Type} [DecidableEq V] (raise : Bool)
    (st : RunState V Ctx) (n : String) (fn : Classifier V Ctx) (r : List V)
    (s : Option Ctx) (h : (fn r s).unhandled_calls = []) :
    run_fn raise st n fn r s = .ok
      { data_values := fun m =>
          if m = n then increment_counter (st.data_values n) (fn r s).result
          else st.data_values m,
        data_exceptions := st.data_exceptions } := by
  simp only [run_fn, h, apply_unhandled_calls]

/-- Helper for C3: an inner loop whose classifiers make no
`update_exceptions` call completes. -/
theorem run_fns_no_calls_ok {V Ctx : Type} [DecidableEq V] (raise : Bool)
    (r : List V) (s : Option Ctx) :
    ∀ (fns : List (String × Classifier V Ctx)) (st : RunState V Ctx),
      (∀ p ∈ fns, (p.2 r s).unhandled_calls = []) →
      ∃ st', run_fns raise r s fns st = .ok st' := by
  intro fns
  induction fns with
  | nil => intro st _; exact ⟨st, rfl⟩
  | cons p fns ih =>
    obtain ⟨n, fn⟩ := p
    intro st h
    have hfn := run_fn_no_calls raise st n fn r s
      (h (n, fn) (List.mem_cons_self _ _))
    obtain ⟨st', hst'⟩ := ih _ (fun q hq => h q (List.mem_cons_of_mem _ hq))
    refine ⟨st', ?_⟩
    simp only [run_fns]
    rw [hfn]
    exact hst'

/-- Helper for C3: a run over combinations on which no classifier makes
an `update_exceptions` call completes. -/
theorem run_combinations_no_calls_ok {V Ctx : Type} [DecidableEq V]
    (raise : Bool) (fns : List (String × Classifier V Ctx)) :
    ∀ (combos : List (List V × Option Ctx)) (st : RunState V Ctx),
      (∀ c ∈ combos, ∀ p ∈ fns, (p.2 c.1 c.2).unhandled_calls = []) →
      ∃ st', run_combinations raise fns combos st = .ok st' := by
  intro combos
  induction combos with
  | nil => intro st _; exact ⟨st, rfl⟩
  | cons c combos ih =>
    obtain ⟨r, s⟩ := c
    intro st h
    obtain ⟨st1, hst1⟩ := run_fns_no_calls_ok raise r s fns st
      (fun q hq => h (r, s) (List.mem_cons_self _ _) q hq)
    obtain ⟨st', hst'⟩ := ih _ (fun d hd q hq => h d (List.mem_cons_of_mem _ hd) q hq)
    refine ⟨st', ?_⟩
    simp only [run_combinations]
    rw [hst1]
    exact hst'

/-- Helper for C3: with the raise flag set, a classifier whose first
`update_exceptions` call passes `(n₁, r₁, s₁)` makes `run_fn` abort with
the `ValueError` data built from `n₁` and `r₁`. -/
theorem run_fn_abort {V Ctx : Type} [DecidableEq V] (st : RunState V Ctx)
    (n : String) (fn : Classifier V Ctx) (r : List V) (s : Option Ctx)
    (n₁ : String) (r₁ : List V) (s₁ : Option Ctx)
    (rest : List (String × List V × Option Ctx))
    (h : (fn r s).unhandled_calls = (n₁, r₁, s₁) :: rest) :
    ∃ st', run_fn true st n fn r s = .error (⟨n₁, r₁⟩, st') := by
  simp only [run_fn, h, apply_unhandled_calls, update_exceptions, if_pos]
  exact ⟨_, rfl⟩

/-- Helper for C3: the abort propagates out of the inner loop, once the
classifiers before the unhandled one (which make no call) have run. -/
theorem run_fns_abort {V Ctx : Type} [DecidableEq V] (r : List V)
    (s : Option Ctx) (n : String) (cf : Classifier V Ctx) (n₁ : String)
    (r₁ : List V) (s₁ : Option Ctx)
    (rest : List (String × List V × Option Ctx))
    (hcall : (cf r s).unhandled_calls = (n₁, r₁, s₁) :: rest) :
    ∀ (fns₁ fns₂ : List (String × Classifier V Ctx)) (st : RunState V Ctx),
      (∀ p ∈ fns₁, (p.2 r s).unhandled_calls = []) →
      ∃ st', run_fns true r s (fns₁ ++ (n, cf) :: fns₂) st
        = .error (⟨n₁, r₁⟩, st') := by
  intro fns₁
  induction fns₁ with
  | nil =>
    intro fns₂ st _
    obtain ⟨st', hst'⟩ := run_fn_abort st n cf r s n₁ r₁ s₁ rest hcall
    refine ⟨st', ?_⟩
    simp only [List.nil_append, run_fns]
    rw [hst']
  | cons p fns₁ ih =>
    obtain ⟨m, mf⟩ := p
    intro fns₂ st h
    have hm := run_fn_no_calls true st m mf r s (h (m, mf) (List.mem_cons_self _ _))
    obtain ⟨st', hst'⟩ := ih fns₂ _ (fun q hq => h q (List.mem_cons_of_mem _ hq))
    refine ⟨st', ?_⟩
    simp only [List.cons_append, run_fns]
    rw [hm]
    exact hst'

/-- C3: with the raise flag set, the first combination on which a
classifier invokes `update_exceptions` (here reporting its own name and
the combination's record, as the framework convention has it) aborts the
whole run with the `ValueError` data naming that classifier and the
offending field values; no further combination is processed — the run
result does not depend on what follows the offending combination. -/
theorem run_all_raise_aborts_on_first {V Ctx : Type} [DecidableEq V]
    (fns₁ fns₂ : List (String × Classifier V Ctx)) (n : String)
    (cf : Classifier V Ctx) (pre : List (List V × Option Ctx)) (r : List V)
    (s : Option Ctx) (rest : List (String × List V × Option Ctx))
    (hpre : ∀ c ∈ pre, ∀ p ∈ fns₁ ++ (n, cf) :: fns₂,
        (p.2 c.1 c.2).unhandled_calls = [])
    (hskip : ∀ p ∈ fns₁, (p.2 r s).unhandled_calls = [])
    (hcall : (cf r s).unhandled_calls = (n, r, s) :: rest) :
    ∀ post post' : List (List V × Option Ctx),
      abortInfo (run_all true (fns₁ ++ (n, cf) :: fns₂)
          (pre ++ (r, s) :: post)) = some ⟨n, r⟩
      ∧ run_all true (fns₁ ++ (n, cf) :: fns₂) (pre ++ (r, s) :: post)
          = run_all true (fns₁ ++ (n, cf) :: fns₂) (pre ++ (r, s) :: post') := by
  obtain ⟨stp, hstp⟩ := run_combinations_no_calls_ok true
    (fns₁ ++ (n, cf) :: fns₂) pre
    { data_values := fun _ => [], data_exceptions := fun _ => [] } hpre
  obtain ⟨st'', hst''⟩ := run_fns_abort r s n cf n r s rest hcall fns₁ fns₂ stp hskip
  have key : ∀ q : List (List V × Option Ctx),
      run_all true (fns₁ ++ (n, cf) :: fns₂) (pre ++ (r, s) :: q)
        = .error (⟨n, r⟩, st'') := by
    intro q
    rw [run_all, run_combinations_append_ok true _ pre ((r, s) :: q) _ stp hstp]
    simp only [run_combinations]
    rw [hst'']
  intro post post'
  rw [key post, key post']
  exact ⟨rfl, rfl⟩

/-- Classifier for the C3 witness: reports every combination as unhandled
under its own name. -/
def c3fn : Classifier Nat Unit := fun r s => ⟨[("fn_a", r, s)], 0⟩

/-- C3 witness: the run aborts on the first combination with the
classifier's name and that combination's field values, and yields the same
result whether or not a second combination follows. -/
theorem run_all_raise_aborts_on_first_witness :
    abortInfo (run_all true [("fn_a", c3fn)] [([5], none), ([6], none)])
        = some ⟨"fn_a", [5]⟩
    ∧ run_all true [("fn_a", c3fn)] [([5], none), ([6], none)]
        = run_all true [("fn_a", c3fn)] [([5], none)] := by
  have h := run_all_raise_aborts_on_first [] [] "fn_a" c3fn [] [5] none []
    (by intro c hc; simp at hc) (by intro p hp; simp at hp) rfl
    [([6], none)] []
  simpa using h

end EdcUtils
